import Mathlib

/-!
Shallow embedding of `utils/simple_persistence.py` (class `SimplePersistence`).

Modelling choices:
* A payload file's content is a `List Char` (a Python text string); payload
  elements are `List Char` lines.
* The filesystem state is an association list from file stem (submission id)
  to content, plus the state of `metadata.json`, which is either missing,
  present-but-unparseable JSON, or a parsed dictionary (association list
  from submission id to entry).
* Timestamps are integers (seconds); `datetime.now(timezone.utc)` is an
  explicit `now : Int` parameter and `timedelta(days = d)` is `d * 86400`.
* The string stored under `"date_indexed"` is abstracted by `DateStr`:
  either a string that `datetime.fromisoformat` parses to the (aware)
  timestamp `t`, a non-empty string on which it raises `ValueError`, or the
  empty string (falsy in Python, so it takes the `if not date_str` branch
  together with a missing key).
* Logger calls and metadata-file writes are recorded in an event trace, in
  program order.
-/

namespace SimplePersistence

/-- Abstraction of the string stored under the `date_indexed` key. -/
inductive DateStr where
  | parses (t : Int)
  | fails
  | empty
deriving DecidableEq

/-- A metadata entry, the dict `{"date_indexed": ...}`; `none` models a dict
with no `date_indexed` key. -/
structure Entry where
  dateIndexed : Option DateStr
deriving DecidableEq

/-- The on-disk state of `metadata.json`. -/
inductive MetaFile where
  | missing
  | corrupt
  | ok (entries : List (String × Entry))
deriving DecidableEq

/-- The filesystem as seen by the store: the base directory flag, the
payload files `<id>.txt` (stem ↦ content) and `metadata.json`. -/
structure FS where
  dirExists : Bool
  payloads : List (String × List Char)
  meta : MetaFile
deriving DecidableEq

inductive LogLevel where
  | info
  | warning
  | error
deriving DecidableEq

/-- One observable step: a logger call or a metadata-file write. -/
inductive Event where
  | metadataLoadWarning
  | metaSaved
  | cleanupStartInfo (days : Int)
  | noDateWarning (id : String)
  | badDateWarning (id : String)
  | deletedFileInfo (id : String)
  | deletedSummaryInfo (n : Nat)
  | noneFoundInfo
  | storedInfo (id : String)
  | loadedInfo (id : String)
  | fileNotFoundError (id : String)
  | noMetadataError (id : String)
deriving DecidableEq

/-- The logger level of an event; `metaSaved` is not a logger call. -/
def Event.level : Event → Option LogLevel
  | .metaSaved => none
  | .metadataLoadWarning => some .warning
  | .noDateWarning _ => some .warning
  | .badDateWarning _ => some .warning
  | .cleanupStartInfo _ => some .info
  | .deletedFileInfo _ => some .info
  | .deletedSummaryInfo _ => some .info
  | .noneFoundInfo => some .info
  | .storedInfo _ => some .info
  | .loadedInfo _ => some .info
  | .fileNotFoundError _ => some .error
  | .noMetadataError _ => some .error

/-- Association-list lookup by key (first match, as in a filesystem or a
Python dict). -/
def lookupKey {α : Type} (k : String) (l : List (String × α)) : Option α :=
  (l.find? (fun p => p.1 == k)).map Prod.snd

/-- Remove every pair with the given key (`del d[k]` / `Path.unlink`). -/
def eraseKey {α : Type} (k : String) (l : List (String × α)) : List (String × α) :=
  l.filter (fun p => p.1 != k)

/-- Python dict assignment `d[k] = v`: replace in place if the key is
present, append otherwise. Also models rewriting a file `open("w")`. -/
def dictInsert {α : Type} (k : String) (v : α) (l : List (String × α)) :
    List (String × α) :=
  if l.any (fun p => p.1 == k) then
    l.map (fun p => if p.1 == k then (k, v) else p)
  else l ++ [(k, v)]

/-- `store_submission`'s write loop: `f.write(line + "\n")` for each line. -/
def writePayload (payload : List (List Char)) : List Char :=
  (payload.map (fun l => l ++ ['\n'])).flatten

/-- `load_submission`'s read: `[line.rstrip("\n") for line in f]` — Python
file iteration splits after each newline, keeps a trailing chunk without a
newline, and each chunk then loses its single trailing newline. -/
def readLines : List Char → List (List Char)
  | [] => []
  | c :: cs =>
    if c = '\n' then [] :: readLines cs
    else
      match readLines cs with
      | [] => [[c]]
      | l :: ls => (c :: l) :: ls

theorem readLines_append (l rest : List Char) (h : '\n' ∉ l) :
    readLines (l ++ '\n' :: rest) = l :: readLines rest := by
  induction l with
  | nil => simp [readLines]
  | cons c cs ih =>
    have hc : c ≠ '\n' := fun hc => h (hc ▸ List.mem_cons_self c cs)
    have hcs : '\n' ∉ cs := fun hm => h (List.mem_cons_of_mem c hm)
    rw [List.cons_append, readLines]
    simp only [hc, if_false, ih hcs]

/-- Round trip at the file level: writing lines that contain no newline and
reading them back is the identity. -/
theorem readLines_writePayload (payload : List (List Char))
    (h : ∀ l ∈ payload, '\n' ∉ l) :
    readLines (writePayload payload) = payload := by
  induction payload with
  | nil => rfl
  | cons l ls ih =>
    have hl : '\n' ∉ l := h l (List.mem_cons_self l ls)
    have hls : ∀ x ∈ ls, '\n' ∉ x := fun x hx => h x (List.mem_cons_of_mem l hx)
    have : writePayload (l :: ls) = l ++ '\n' :: writePayload ls := by
      simp [writePayload]
    rw [this, readLines_append l _ hl, ih hls]

/-- Seconds in a day: `timedelta(days = d)` is `d * secondsPerDay`. -/
def secondsPerDay : Int := 86400

/-- Default of the `older_than_days` parameter of `cleanup_submissions`. -/
def defaultOlderThanDays : Int := 28

/-- `__init__`: `mkdir(exist_ok=True)`, then write `{}` to `metadata.json`
only if that file does not exist. -/
def initStore (fs : FS) : FS :=
  let fs1 : FS := { fs with dirExists := true }
  match fs1.meta with
  | .missing => { fs1 with meta := .ok [] }
  | _ => fs1

/-- `_load_metadata`: the parsed dict on success; on `FileNotFoundError` or
`json.JSONDecodeError`, a warning and the empty dict. -/
def loadMetadata (fs : FS) : List (String × Entry) × List Event :=
  match fs.meta with
  | .ok m => (m, [])
  | _ => ([], [Event.metadataLoadWarning])

/-- The test deciding eviction: the entry has a parseable `date_indexed`
strictly earlier than the cutoff. -/
def shouldDelete (cutoff : Int) (e : Entry) : Bool :=
  match e.dateIndexed with
  | some (.parses t) => t < cutoff
  | _ => false

/-- First loop of `cleanup_submissions`: build `to_delete` and the warnings,
in iteration order. -/
def scanEntries (cutoff : Int) : List (String × Entry) → List String × List Event
  | [] => ([], [])
  | (id, e) :: rest =>
    let r := scanEntries cutoff rest
    match e.dateIndexed with
    | none => (r.1, Event.noDateWarning id :: r.2)
    | some .empty => (r.1, Event.noDateWarning id :: r.2)
    | some .fails => (r.1, Event.badDateWarning id :: r.2)
    | some (.parses t) => if t < cutoff then (id :: r.1, r.2) else r

/-- Second loop of `cleanup_submissions`: for each marked id, unlink the
payload file when present (logging an info message) and `del` the metadata
entry. -/
def performDeletions :
    List String → List (String × List Char) → List (String × Entry) →
    List (String × List Char) × List (String × Entry) × List Event
  | [], ps, m => (ps, m, [])
  | id :: rest, ps, m =>
    let step : List (String × List Char) × List Event :=
      if (lookupKey id ps).isSome then (eraseKey id ps, [Event.deletedFileInfo id])
      else (ps, [])
    let r := performDeletions rest step.1 (eraseKey id m)
    (r.1, r.2.1, step.2 ++ r.2.2)

/-- `cleanup_submissions(older_than_days)`. -/
def cleanupSubmissions (now olderThanDays : Int) (fs : FS) : FS × List Event :=
  let lm := loadMetadata fs
  let cutoff := now - olderThanDays * secondsPerDay
  let sc := scanEntries cutoff lm.1
  let pd := performDeletions sc.1 fs.payloads lm.1
  let summary := if sc.1.isEmpty then [Event.noneFoundInfo]
                 else [Event.deletedSummaryInfo sc.1.length]
  ({ fs with payloads := pd.1, meta := .ok pd.2.1 },
   Event.cleanupStartInfo olderThanDays :: lm.2 ++ sc.2 ++ pd.2.2
     ++ [Event.metaSaved] ++ summary)

/-- `store_submission(submission_id, payload)`. -/
def storeSubmission (now : Int) (id : String) (payload : List (List Char))
    (fs : FS) : FS × List Event :=
  let fs1 : FS := { fs with payloads := dictInsert id (writePayload payload) fs.payloads }
  let lm := loadMetadata fs1
  let m1 := dictInsert id { dateIndexed := some (DateStr.parses now) } lm.1
  let fs2 : FS := { fs1 with meta := MetaFile.ok m1 }
  let cl := cleanupSubmissions now defaultOlderThanDays fs2
  (cl.1, lm.2 ++ [Event.metaSaved] ++ cl.2 ++ [Event.storedInfo id])

/-- The two `FileNotFoundError` raises of `load_submission`, told apart by
their message. -/
inductive LoadError where
  | fileNotFound
  | noMetadata
deriving DecidableEq

/-- `load_submission(submission_id)`: the raised error or the returned
`{"payload": ..., "metadata": ...}`, the final filesystem, the trace. -/
def loadSubmission (now : Int) (id : String) (fs : FS) :
    Except LoadError (List (List Char) × Entry) × FS × List Event :=
  match lookupKey id fs.payloads with
  | none => (Except.error LoadError.fileNotFound, fs, [Event.fileNotFoundError id])
  | some content =>
    let payload := readLines content
    let lm := loadMetadata fs
    match lookupKey id lm.1 with
    | none => (Except.error LoadError.noMetadata, fs, lm.2 ++ [Event.noMetadataError id])
    | some entry =>
      let cl := cleanupSubmissions now defaultOlderThanDays fs
      (Except.ok (payload, entry), cl.1, lm.2 ++ [Event.loadedInfo id] ++ cl.2)

/-- `load_only_payload(submission_id)`: wrapper projecting the payload. -/
def loadOnlyPayload (now : Int) (id : String) (fs : FS) :
    Except LoadError (List (List Char)) × FS × List Event :=
  let r := loadSubmission now id fs
  (r.1.map Prod.fst, r.2.1, r.2.2)

/-- Whether a result is a raised exception. -/
def isErr {α : Type} : Except LoadError α → Bool
  | .error _ => true
  | .ok _ => false

/-- The ids marked for deletion by a cleanup run on `fs`. -/
def toDeleteList (now olderThanDays : Int) (fs : FS) : List String :=
  ((loadMetadata fs).1.filter
    (fun p => shouldDelete (now - olderThanDays * secondsPerDay) p.2)).map Prod.fst

/-! Lemmas about the association-list primitives. -/

theorem lookupKey_eq_none {α : Type} {k : String} {l : List (String × α)} :
    lookupKey k l = none ↔ ∀ p ∈ l, p.1 ≠ k := by
  simp [lookupKey, List.find?_eq_none]

theorem eraseKey_eq_self {α : Type} {k : String} {l : List (String × α)}
    (h : lookupKey k l = none) : eraseKey k l = l := by
  rw [eraseKey, List.filter_eq_self]
  intro p hp
  simpa using (lookupKey_eq_none.mp h p hp)

theorem lookupKey_dictInsert {α : Type} (k : String) (v : α)
    (l : List (String × α)) : lookupKey k (dictInsert k v l) = some v := by
  rw [dictInsert]
  by_cases hany : l.any (fun p => p.1 == k) = true
  · rw [if_pos hany]
    induction l with
    | nil => simp at hany
    | cons p rest ih =>
      by_cases hp : p.1 == k
      · simp [lookupKey, List.find?, hp]
      · have hrest : rest.any (fun q => q.1 == k) = true := by
          simp only [List.any_cons, hp, Bool.false_or] at hany
          exact hany
        have := ih hrest
        simpa [lookupKey, List.find?, hp] using this
  · rw [if_neg hany]
    have hl : List.find? (fun p => p.1 == k) l = none := by
      rw [List.find?_eq_none]
      intro p hp hpk
      exact hany (List.any_eq_true.mpr ⟨p, hp, hpk⟩)
    simp [lookupKey, List.find?_append, hl]

theorem mem_dictInsert_key {α : Type} {k : String} {v : α}
    {l : List (String × α)} {p : String × α}
    (hp : p ∈ dictInsert k v l) (hk : p.1 = k) : p = (k, v) := by
  rw [dictInsert] at hp
  by_cases hany : l.any (fun q => q.1 == k) = true
  · rw [if_pos hany] at hp
    rcases List.mem_map.mp hp with ⟨q, _, hq⟩
    by_cases hqk : q.1 == k
    · rw [if_pos hqk] at hq; exact hq.symm
    · rw [if_neg hqk] at hq
      exact absurd (beq_iff_eq.mpr (hq ▸ hk)) hqk
  · rw [if_neg hany] at hp
    rcases List.mem_append.mp hp with h | h
    · exact absurd ((@List.any_eq_true _ (fun q => q.1 == k) l).mpr
        ⟨p, h, beq_iff_eq.mpr hk⟩) hany
    · simpa using h

theorem lookupKey_filter {α : Type} (k : String) (l : List (String × α))
    (q : String × α → Bool) (hq : ∀ p, p.1 = k → q p = true) :
    lookupKey k (l.filter q) = lookupKey k l := by
  induction l with
  | nil => rfl
  | cons p rest ih =>
    rw [List.filter_cons]
    by_cases hqp : q p = true
    · rw [if_pos hqp]
      by_cases hp : (p.1 == k) = true
      · simp [lookupKey, List.find?, hp]
      · simpa [lookupKey, List.find?, hp] using ih
    · rw [if_neg hqp]
      have hp : (p.1 == k) = false := by
        rcases Bool.eq_false_or_eq_true (p.1 == k) with h | h
        · exact absurd (hq p (beq_iff_eq.mp h)) hqp
        · exact h
      rw [ih]
      simp [lookupKey, List.find?, hp]

theorem lookupKey_filter_none {α : Type} (k : String) (l : List (String × α))
    (q : String × α → Bool) (hq : ∀ p, p.1 = k → q p = false) :
    lookupKey k (l.filter q) = none := by
  rw [lookupKey_eq_none]
  intro p hp hpk
  have := (List.mem_filter.mp hp).2
  rw [hq p hpk] at this
  exact Bool.false_ne_true this

theorem lookupKey_mem {α : Type} {k : String} {l : List (String × α)} {v : α}
    (h : lookupKey k l = some v) : (k, v) ∈ l := by
  induction l with
  | nil => simp [lookupKey] at h
  | cons p rest ih =>
    by_cases hp : (p.1 == k) = true
    · have hkey : p.1 = k := beq_iff_eq.mp hp
      have hval : p.2 = v := by simpa [lookupKey, List.find?, hp] using h
      have hpv : p = (k, v) := by
        cases p
        simp_all
      exact hpv ▸ List.mem_cons_self _ _
    · have h' : lookupKey k rest = some v := by
        simpa [lookupKey, List.find?, hp] using h
      exact List.mem_cons_of_mem _ (ih h')

/-! Characterization of `cleanup_submissions`. -/

theorem scanEntries_fst (cutoff : Int) (m : List (String × Entry)) :
    (scanEntries cutoff m).1
      = (m.filter (fun p => shouldDelete cutoff p.2)).map Prod.fst := by
  induction m with
  | nil => rfl
  | cons p rest ih =>
    obtain ⟨id, e⟩ := p
    rcases he : e.dateIndexed with _ | d
    · simp [scanEntries, he, List.filter_cons, shouldDelete, ih]
    · cases d with
      | parses t =>
        by_cases ht : t < cutoff
        · simp [scanEntries, he, List.filter_cons, shouldDelete, ht, ih]
        · simp [scanEntries, he, List.filter_cons, shouldDelete, ht, ih]
      | fails => simp [scanEntries, he, List.filter_cons, shouldDelete, ih]
      | empty => simp [scanEntries, he, List.filter_cons, shouldDelete, ih]

theorem scanEntries_events_warning (cutoff : Int) (m : List (String × Entry)) :
    ∀ ev ∈ (scanEntries cutoff m).2, ev.level = some LogLevel.warning := by
  induction m with
  | nil => intro ev h; simp [scanEntries] at h
  | cons p rest ih =>
    obtain ⟨id, e⟩ := p
    intro ev hev
    rcases he : e.dateIndexed with _ | d
    · simp only [scanEntries, he, List.mem_cons] at hev
      rcases hev with h | h
      · rw [h]; rfl
      · exact ih ev h
    · cases d with
      | parses t =>
        by_cases ht : t < cutoff
        · simp only [scanEntries, he, ht, if_true] at hev
          exact ih ev hev
        · simp only [scanEntries, he, ht, if_false] at hev
          exact ih ev hev
      | fails =>
        simp only [scanEntries, he, List.mem_cons] at hev
        rcases hev with h | h
        · rw [h]; rfl
        · exact ih ev h
      | empty =>
        simp only [scanEntries, he, List.mem_cons] at hev
        rcases hev with h | h
        · rw [h]; rfl
        · exact ih ev h

/-- Entries with a missing, empty or unparseable `date_indexed` produce
their warning in the scan. -/
theorem scanEntries_warning_of_bad (cutoff : Int) (m : List (String × Entry))
    (id : String) (e : Entry) (hm : (id, e) ∈ m)
    (hbad : e.dateIndexed = none ∨ e.dateIndexed = some DateStr.empty
      ∨ e.dateIndexed = some DateStr.fails) :
    Event.noDateWarning id ∈ (scanEntries cutoff m).2
      ∨ Event.badDateWarning id ∈ (scanEntries cutoff m).2 := by
  induction m with
  | nil => simp at hm
  | cons p rest ih =>
    obtain ⟨id2, e2⟩ := p
    rcases List.mem_cons.mp hm with h | h
    · injection h with h1 h2
      subst h1
      subst h2
      rcases hbad with hb | hb | hb
      · exact Or.inl (by simp [scanEntries, hb])
      · exact Or.inl (by simp [scanEntries, hb])
      · exact Or.inr (by simp [scanEntries, hb])
    · have hrec := ih h
      rcases he : e2.dateIndexed with _ | d
      · rcases hrec with hin | hin
        · exact Or.inl (by simp [scanEntries, he, hin])
        · exact Or.inr (by simp [scanEntries, he, hin])
      · cases d with
        | parses t =>
          by_cases ht : t < cutoff
          · rcases hrec with hin | hin
            · exact Or.inl (by simp only [scanEntries, he, ht, if_true]; exact hin)
            · exact Or.inr (by simp only [scanEntries, he, ht, if_true]; exact hin)
          · rcases hrec with hin | hin
            · exact Or.inl (by simp only [scanEntries, he, ht, if_false]; exact hin)
            · exact Or.inr (by simp only [scanEntries, he, ht, if_false]; exact hin)
        | fails =>
          rcases hrec with hin | hin
          · exact Or.inl (by simp [scanEntries, he, hin])
          · exact Or.inr (by simp [scanEntries, he, hin])
        | empty =>
          rcases hrec with hin | hin
          · exact Or.inl (by simp [scanEntries, he, hin])
          · exact Or.inr (by simp [scanEntries, he, hin])

theorem performDeletions_payloads (ids : List String)
    (ps : List (String × List Char)) (m : List (String × Entry)) :
    (performDeletions ids ps m).1
      = ps.filter (fun p => !ids.contains p.1) := by
  induction ids generalizing ps m with
  | nil => simp [performDeletions]
  | cons id rest ih =>
    have hstep :
        (if (lookupKey id ps).isSome then (eraseKey id ps, [Event.deletedFileInfo id])
         else (ps, [])).1 = eraseKey id ps := by
      rcases hl : lookupKey id ps with _ | v
      · rw [if_neg (by simp [hl])]
        exact (eraseKey_eq_self hl).symm
      · rw [if_pos (by simp [hl])]
    rw [performDeletions]
    simp only [hstep, ih]
    rw [eraseKey, List.filter_filter]
    apply List.filter_congr
    intro p _
    by_cases h : p.1 = id <;>
      simp [h, List.contains_cons, Bool.not_or, Bool.and_comm]

theorem performDeletions_meta (ids : List String)
    (ps : List (String × List Char)) (m : List (String × Entry)) :
    (performDeletions ids ps m).2.1
      = m.filter (fun p => !ids.contains p.1) := by
  induction ids generalizing ps m with
  | nil => simp [performDeletions]
  | cons id rest ih =>
    rw [performDeletions]
    simp only [ih]
    rw [eraseKey, List.filter_filter]
    apply List.filter_congr
    intro p _
    by_cases h : p.1 = id <;>
      simp [h, List.contains_cons, Bool.not_or, Bool.and_comm]

theorem performDeletions_events_info (ids : List String)
    (ps : List (String × List Char)) (m : List (String × Entry)) :
    ∀ ev ∈ (performDeletions ids ps m).2.2, ev.level = some LogLevel.info := by
  induction ids generalizing ps m with
  | nil => intro ev h; simp [performDeletions] at h
  | cons id rest ih =>
    intro ev hev
    rw [performDeletions] at hev
    simp only [List.mem_append] at hev
    rcases hev with h | h
    · by_cases hl : (lookupKey id ps).isSome
      · rw [if_pos hl] at h
        rcases List.mem_singleton.mp h with rfl
        rfl
      · rw [if_neg hl] at h
        simp at h
    · exact ih _ _ ev h

theorem cleanup_payloads (now days : Int) (fs : FS) :
    (cleanupSubmissions now days fs).1.payloads
      = fs.payloads.filter (fun p => !(toDeleteList now days fs).contains p.1) := by
  rw [cleanupSubmissions, toDeleteList]
  simp only [performDeletions_payloads, scanEntries_fst]

theorem cleanup_meta (now days : Int) (fs : FS) :
    (cleanupSubmissions now days fs).1.meta
      = MetaFile.ok ((loadMetadata fs).1.filter
          (fun p => !(toDeleteList now days fs).contains p.1)) := by
  rw [cleanupSubmissions, toDeleteList]
  simp only [performDeletions_meta, scanEntries_fst]

theorem cleanup_dirExists (now days : Int) (fs : FS) :
    (cleanupSubmissions now days fs).1.dirExists = fs.dirExists := rfl

theorem mem_toDeleteList {now days : Int} {fs : FS} {id : String} :
    id ∈ toDeleteList now days fs
      ↔ ∃ e, (id, e) ∈ (loadMetadata fs).1
          ∧ shouldDelete (now - days * secondsPerDay) e = true := by
  rw [toDeleteList]
  constructor
  · intro h
    rcases List.mem_map.mp h with ⟨p, hp, hfst⟩
    rcases List.mem_filter.mp hp with ⟨hmem, hdel⟩
    exact ⟨p.2, by rwa [← hfst, Prod.mk.eta], hdel⟩
  · rintro ⟨e, hmem, hdel⟩
    exact List.mem_map.mpr ⟨(id, e), List.mem_filter.mpr ⟨hmem, hdel⟩, rfl⟩

theorem count_metaSaved_eq_zero {evs : List Event} {lv : LogLevel}
    (h : ∀ ev ∈ evs, ev.level = some lv) :
    evs.count Event.metaSaved = 0 := by
  rw [List.count_eq_zero]
  intro hmem
  have := h _ hmem
  simp [Event.level] at this

theorem loadMetadata_events (fs : FS) :
    (loadMetadata fs).2 = [] ∨ (loadMetadata fs).2 = [Event.metadataLoadWarning] := by
  rcases hm : fs.meta with _ | _ | m <;> simp [loadMetadata, hm]

/-- Each cleanup run writes the metadata file exactly once. -/
theorem cleanup_count_metaSaved (now days : Int) (fs : FS) :
    (cleanupSubmissions now days fs).2.count Event.metaSaved = 1 := by
  rw [cleanupSubmissions]
  simp only [List.count_cons, List.count_append]
  have h1 : (loadMetadata fs).2.count Event.metaSaved = 0 := by
    rcases loadMetadata_events fs with h | h <;> simp [h]
  have h2 : ((scanEntries (now - days * secondsPerDay) (loadMetadata fs).1).2).count
      Event.metaSaved = 0 :=
    count_metaSaved_eq_zero (scanEntries_events_warning _ _)
  have h3 : ((performDeletions (scanEntries (now - days * secondsPerDay)
      (loadMetadata fs).1).1 fs.payloads (loadMetadata fs).1).2.2).count
      Event.metaSaved = 0 :=
    count_metaSaved_eq_zero (performDeletions_events_info _ _ _)
  have h4 : ∀ l : List String,
      (if l.isEmpty then [Event.noneFoundInfo]
       else [Event.deletedSummaryInfo l.length]).count Event.metaSaved = 0 := by
    intro l
    by_cases hl : l.isEmpty <;> simp [hl]
  rw [h1, h2, h3, h4]
  rfl

/-- No event of a cleanup run is an error-level log. -/
theorem cleanup_no_error (now days : Int) (fs : FS) :
    ∀ ev ∈ (cleanupSubmissions now days fs).2, ev.level ≠ some LogLevel.error := by
  intro ev hev
  rw [cleanupSubmissions] at hev
  simp only [List.mem_cons, List.mem_append, List.mem_singleton] at hev
  rcases hev with ((((h | h) | h) | h) | h | h) | h
  · rw [h]; simp [Event.level]
  · rcases loadMetadata_events fs with he | he <;> rw [he] at h
    · simp at h
    · rcases List.mem_singleton.mp h with rfl
      simp [Event.level]
  · have := scanEntries_events_warning _ _ ev h
    simp [this]
  · have := performDeletions_events_info _ _ _ ev h
    simp [this]
  · rw [h]; simp [Event.level]
  · simp at h
  · by_cases hl : (scanEntries (now - days * secondsPerDay)
      (loadMetadata fs).1).1.isEmpty
    · rw [if_pos hl] at h
      rcases List.mem_singleton.mp h with rfl
      simp [Event.level]
    · rw [if_neg hl] at h
      rcases List.mem_singleton.mp h with rfl
      simp [Event.level]

/-! The state after the metadata write of `store_submission`, before the
eviction sweep it triggers. -/

def storedFS (now : Int) (id : String) (payload : List (List Char))
    (fs : FS) : FS :=
  { dirExists := fs.dirExists
    payloads := dictInsert id (writePayload payload) fs.payloads
    meta := MetaFile.ok (dictInsert id { dateIndexed := some (DateStr.parses now) }
      (loadMetadata fs).1) }

theorem storeSubmission_fst (now : Int) (id : String)
    (payload : List (List Char)) (fs : FS) :
    (storeSubmission now id payload fs).1
      = (cleanupSubmissions now defaultOlderThanDays (storedFS now id payload fs)).1 := rfl

theorem store_not_marked (now : Int) (id : String)
    (payload : List (List Char)) (fs : FS) :
    id ∉ toDeleteList now defaultOlderThanDays (storedFS now id payload fs) := by
  intro hmem
  rcases mem_toDeleteList.mp hmem with ⟨e, hm, hdel⟩
  have he : (id, e) = (id, { dateIndexed := some (DateStr.parses now) }) :=
    mem_dictInsert_key hm rfl
  injection he with _ h2
  rw [h2] at hdel
  simp only [shouldDelete, defaultOlderThanDays, secondsPerDay,
    decide_eq_true_eq] at hdel
  omega

/-- After a store of `id`, the payload file for `id` holds exactly what was
written, whatever was there before. -/
theorem store_lookup_payload (now : Int) (id : String)
    (payload : List (List Char)) (fs : FS) :
    lookupKey id (storeSubmission now id payload fs).1.payloads
      = some (writePayload payload) := by
  rw [storeSubmission_fst, cleanup_payloads]
  rw [lookupKey_filter]
  · exact lookupKey_dictInsert ..
  · intro p hp
    rw [hp]
    simp [store_not_marked now id payload fs]

/-- After a store of `id`, the metadata document is well formed and holds
the freshly written entry for `id`. -/
theorem store_lookup_meta (now : Int) (id : String)
    (payload : List (List Char)) (fs : FS) :
    ∃ m', (storeSubmission now id payload fs).1.meta = MetaFile.ok m'
      ∧ lookupKey id m' = some { dateIndexed := some (DateStr.parses now) } := by
  refine ⟨_, by rw [storeSubmission_fst, cleanup_meta], ?_⟩
  rw [lookupKey_filter]
  · exact lookupKey_dictInsert ..
  · intro p hp
    rw [hp]
    simp [store_not_marked now id payload fs]

/-! Case analysis of `load_submission`. -/

theorem loadSubmission_noFile (now : Int) (id : String) (fs : FS)
    (hfile : lookupKey id fs.payloads = none) :
    loadSubmission now id fs
      = (Except.error LoadError.fileNotFound, fs, [Event.fileNotFoundError id]) := by
  simp only [loadSubmission, hfile]

theorem loadSubmission_noMeta (now : Int) (id : String) (fs : FS)
    {content : List Char} (hfile : lookupKey id fs.payloads = some content)
    (hmeta : lookupKey id (loadMetadata fs).1 = none) :
    loadSubmission now id fs
      = (Except.error LoadError.noMetadata, fs,
         (loadMetadata fs).2 ++ [Event.noMetadataError id]) := by
  simp only [loadSubmission, hfile, hmeta]

theorem loadSubmission_success (now : Int) (id : String) (fs : FS)
    {content : List Char} {e : Entry}
    (hfile : lookupKey id fs.payloads = some content)
    (hmeta : lookupKey id (loadMetadata fs).1 = some e) :
    loadSubmission now id fs
      = (Except.ok (readLines content, e),
         (cleanupSubmissions now defaultOlderThanDays fs).1,
         (loadMetadata fs).2 ++ [Event.loadedInfo id]
           ++ (cleanupSubmissions now defaultOlderThanDays fs).2) := by
  simp only [loadSubmission, hfile, hmeta]

/-- Loading right after storing returns exactly the stored payload together
with the fresh metadata entry, whatever the prior state and whatever the
clock says at load time. -/
theorem store_then_load (n1 n2 : Int) (id : String)
    (payload : List (List Char)) (fs : FS)
    (h : ∀ l ∈ payload, '\n' ∉ l) :
    (loadSubmission n2 id (storeSubmission n1 id payload fs).1).1
      = Except.ok (payload, { dateIndexed := some (DateStr.parses n1) }) := by
  have hp := store_lookup_payload n1 id payload fs
  rcases store_lookup_meta n1 id payload fs with ⟨m', hm', hlook⟩
  have hlm : loadMetadata (storeSubmission n1 id payload fs).1 = (m', []) := by
    simp only [loadMetadata, hm']
  have hmeta : lookupKey id (loadMetadata (storeSubmission n1 id payload fs).1).1
      = some { dateIndexed := some (DateStr.parses n1) } := by
    rw [hlm]
    exact hlook
  rw [loadSubmission_success n2 id _ hp hmeta]
  simp only [readLines_writePayload payload h]

/-! Helpers for stores whose metadata keys are free of duplicates (always
true of a dict parsed from JSON). -/

theorem keys_nodup_eq {α : Type} {l : List (String × α)}
    (hnd : (l.map Prod.fst).Nodup) {p q : String × α}
    (hp : p ∈ l) (hq : q ∈ l) (hk : p.1 = q.1) : p = q := by
  induction l with
  | nil => simp at hp
  | cons r rest ih =>
    have hnd1 : r.1 ∉ rest.map Prod.fst := (List.nodup_cons.mp hnd).1
    have hnd2 : (rest.map Prod.fst).Nodup := (List.nodup_cons.mp hnd).2
    rcases List.mem_cons.mp hp with hp1 | hp1 <;>
      rcases List.mem_cons.mp hq with hq1 | hq1
    · rw [hp1, hq1]
    · exact absurd (List.mem_map.mpr ⟨q, hq1, (hp1 ▸ hk).symm⟩) hnd1
    · exact absurd (List.mem_map.mpr ⟨p, hp1, hq1 ▸ hk⟩) hnd1
    · exact ih hnd2 hp1 hq1

theorem mem_toDeleteList_nodup {now days : Int} {fs : FS}
    {m : List (String × Entry)} (hm : fs.meta = MetaFile.ok m)
    (hnd : (m.map Prod.fst).Nodup) {id : String} {e : Entry}
    (hmem : (id, e) ∈ m) :
    id ∈ toDeleteList now days fs
      ↔ shouldDelete (now - days * secondsPerDay) e = true := by
  have hlm : (loadMetadata fs).1 = m := by simp [loadMetadata, hm]
  constructor
  · intro h
    rcases mem_toDeleteList.mp h with ⟨e2, hmem2, hdel⟩
    rw [hlm] at hmem2
    have : (id, e2) = (id, e) := keys_nodup_eq hnd hmem2 hmem rfl
    injection this with _ h2
    rwa [h2] at hdel
  · intro h
    exact mem_toDeleteList.mpr ⟨e, hlm ▸ hmem, h⟩

/-- With duplicate-free keys, cleanup's surviving metadata is exactly the
filter of the old document by the retention test. -/
theorem cleanup_meta_nodup (now days : Int) (fs : FS)
    (m : List (String × Entry)) (hm : fs.meta = MetaFile.ok m)
    (hnd : (m.map Prod.fst).Nodup) :
    (cleanupSubmissions now days fs).1.meta
      = MetaFile.ok (m.filter
          (fun p => !shouldDelete (now - days * secondsPerDay) p.2)) := by
  have hlm : (loadMetadata fs).1 = m := by simp [loadMetadata, hm]
  rw [cleanup_meta, hlm]
  congr 1
  apply List.filter_congr
  intro p hp
  have hp' : (p.1, p.2) ∈ m := by rwa [Prod.mk.eta]
  by_cases hd : shouldDelete (now - days * secondsPerDay) p.2 = true
  · have : p.1 ∈ toDeleteList now days fs :=
      (mem_toDeleteList_nodup hm hnd hp').mpr hd
    simp [this, hd]
  · have : p.1 ∉ toDeleteList now days fs := fun hin =>
      hd ((mem_toDeleteList_nodup hm hnd hp').mp hin)
    simp [this, Bool.eq_false_iff.mpr hd]

theorem loadMetadata_events_warning (fs : FS) :
    ∀ ev ∈ (loadMetadata fs).2, ev.level = some LogLevel.warning := by
  intro ev hev
  rcases loadMetadata_events fs with h | h <;> rw [h] at hev
  · simp at hev
  · rcases List.mem_singleton.mp hev with rfl
    rfl

/-! The claims. -/

/-- C1: for every submission id and every payload whose elements contain no
newline character, `store_submission(id, payload)` followed by
`load_submission(id)` returns a payload list equal element-for-element to
the original, for any prior store state and any clocks. -/
theorem claim1_store_load_roundtrip (n1 n2 : Int) (id : String)
    (payload : List (List Char)) (fs : FS)
    (h : ∀ l ∈ payload, '\n' ∉ l) :
    ∃ e : Entry, (loadSubmission n2 id (storeSubmission n1 id payload fs).1).1
      = Except.ok (payload, e) :=
  ⟨_, store_then_load n1 n2 id payload fs h⟩

theorem claim1_witness :
    (∀ l ∈ [['a'], ([] : List Char), ['b', 'c']], '\n' ∉ l)
    ∧ ∃ e : Entry,
      (loadSubmission 5 "sub1" (storeSubmission 3 "sub1"
        [['a'], [], ['b', 'c']] ⟨false, [], MetaFile.missing⟩).1).1
        = Except.ok ([['a'], [], ['b', 'c']], e) :=
  ⟨by decide, claim1_store_load_roundtrip 3 5 "sub1" _ _ (by decide)⟩

/-- C5: the metadata load helper never fails: on a missing or malformed
metadata file it returns the empty document with a logged warning, and no
call of it ever produces anything but warnings. -/
theorem claim5_load_metadata_total (fs : FS) :
    ((fs.meta = MetaFile.missing ∨ fs.meta = MetaFile.corrupt) →
      loadMetadata fs = ([], [Event.metadataLoadWarning]))
    ∧ (∀ ev ∈ (loadMetadata fs).2, ev.level = some LogLevel.warning) := by
  constructor
  · rintro (h | h) <;> simp [loadMetadata, h]
  · exact loadMetadata_events_warning fs

theorem claim5_witness :
    loadMetadata ⟨true, [], MetaFile.corrupt⟩ = ([], [Event.metadataLoadWarning]) :=
  (claim5_load_metadata_total ⟨true, [], MetaFile.corrupt⟩).1 (Or.inr rfl)

/-- C6: storing twice under the same id and then loading returns exactly
the second payload with the second store's fresh metadata entry — the
second store fully overwrites the first, whatever `p1` was. -/
theorem claim6_store_overwrite (n1 n2 n3 : Int) (id : String)
    (p1 p2 : List (List Char)) (fs : FS) (h : ∀ l ∈ p2, '\n' ∉ l) :
    (loadSubmission n3 id (storeSubmission n2 id p2
        (storeSubmission n1 id p1 fs).1).1).1
      = Except.ok (p2, { dateIndexed := some (DateStr.parses n2) }) :=
  store_then_load n2 n3 id p2 _ h

theorem claim6_witness :
    (∀ l ∈ [['y', 'y']], '\n' ∉ l)
    ∧ (loadSubmission 9 "s" (storeSubmission 2 "s" [['y', 'y']]
        (storeSubmission 1 "s" [['x'], ['x']] ⟨true, [], MetaFile.ok []⟩).1).1).1
      = Except.ok ([['y', 'y']], { dateIndexed := some (DateStr.parses 2) }) :=
  ⟨by decide, claim6_store_overwrite 1 2 9 "s" [['x'], ['x']] [['y', 'y']] _ (by decide)⟩

/-- C7: constructing the store on a fresh directory creates the directory
and an empty parseable metadata document; constructing it again on an
existing store leaves the metadata document and the payload files
unchanged — the empty document is written only when `metadata.json` is
absent. -/
theorem claim7_init (fs : FS) (ps : List (String × List Char)) (b : Bool) :
    (initStore { dirExists := b, payloads := ps, meta := MetaFile.missing }
       = { dirExists := true, payloads := ps, meta := MetaFile.ok [] })
    ∧ (fs.meta ≠ MetaFile.missing →
        (initStore fs).meta = fs.meta ∧ (initStore fs).payloads = fs.payloads
          ∧ (initStore fs).dirExists = true) := by
  constructor
  · rfl
  · intro h
    rcases hm : fs.meta with _ | _ | m
    · exact absurd hm h
    · exact ⟨by simp [initStore, hm], by simp [initStore, hm], by simp [initStore, hm]⟩
    · exact ⟨by simp [initStore, hm], by simp [initStore, hm], by simp [initStore, hm]⟩

theorem claim7_witness :
    (MetaFile.ok [("a", { dateIndexed := some (DateStr.parses 7) })] ≠ MetaFile.missing)
    ∧ (initStore ⟨true, [("a", ['x'])],
        MetaFile.ok [("a", { dateIndexed := some (DateStr.parses 7) })]⟩).meta
      = MetaFile.ok [("a", { dateIndexed := some (DateStr.parses 7) })] :=
  ⟨by decide,
   ((claim7_init ⟨true, [("a", ['x'])],
      MetaFile.ok [("a", { dateIndexed := some (DateStr.parses 7) })]⟩ [] true).2
     (by decide)).1⟩

/-- C2: `load_submission` raises NotFound exactly when the payload file is
absent or the metadata document has no entry for the id;
`load_only_payload` raises in exactly the same cases; and whenever it
raises, the last event of the trace is an error-level log, i.e. the error
message is logged before the exception propagates. -/
theorem claim2_load_notfound_iff (now : Int) (id : String) (fs : FS) :
    (isErr (loadSubmission now id fs).1 = true
      ↔ (lookupKey id fs.payloads = none
          ∨ lookupKey id (loadMetadata fs).1 = none))
    ∧ isErr (loadOnlyPayload now id fs).1 = isErr (loadSubmission now id fs).1
    ∧ (isErr (loadSubmission now id fs).1 = true →
        ∃ ev, ((loadSubmission now id fs).2.2).getLast? = some ev
          ∧ ev.level = some LogLevel.error) := by
  rcases hfile : lookupKey id fs.payloads with _ | content
  · rw [loadSubmission_noFile now id fs hfile]
    refine ⟨by simp [isErr], ?_, ?_⟩
    · simp [loadOnlyPayload, loadSubmission_noFile now id fs hfile, isErr, Except.map]
    · intro _
      exact ⟨Event.fileNotFoundError id, by simp, rfl⟩
  · rcases hmeta : lookupKey id (loadMetadata fs).1 with _ | e
    · rw [loadSubmission_noMeta now id fs hfile hmeta]
      refine ⟨by simp [isErr, hfile, hmeta], ?_, ?_⟩
      · simp [loadOnlyPayload, loadSubmission_noMeta now id fs hfile hmeta,
          isErr, Except.map]
      · intro _
        exact ⟨Event.noMetadataError id, by simp [List.getLast?_concat], rfl⟩
    · rw [loadSubmission_success now id fs hfile hmeta]
      refine ⟨by simp [isErr, hfile, hmeta], ?_, ?_⟩
      · simp [loadOnlyPayload, loadSubmission_success now id fs hfile hmeta,
          isErr, Except.map]
      · intro h
        simp [isErr] at h

theorem claim2_witness :
    isErr (loadSubmission 0 "ghost" ⟨true, [], MetaFile.ok []⟩).1 = true
    ∧ ∃ ev, ((loadSubmission 0 "ghost" ⟨true, [], MetaFile.ok []⟩).2.2).getLast?
        = some ev ∧ ev.level = some LogLevel.error :=
  ⟨by decide,
   (claim2_load_notfound_iff 0 "ghost" ⟨true, [], MetaFile.ok []⟩).2.2 (by decide)⟩

/-- C3: with a parsed metadata document free of duplicate keys, cleanup
deletes exactly the entries whose `date_indexed` parses to a timestamp
strictly earlier than now minus the threshold: the surviving document is
the filter of the old one, each evicted id's payload file is gone
afterwards (whether or not it existed), and each retained id's payload
file is untouched. -/
theorem claim3_cleanup_exact (now days : Int) (fs : FS)
    (m : List (String × Entry)) (hm : fs.meta = MetaFile.ok m)
    (hnd : (m.map Prod.fst).Nodup) :
    ((cleanupSubmissions now days fs).1.meta
        = MetaFile.ok (m.filter
            (fun p => !shouldDelete (now - days * secondsPerDay) p.2)))
    ∧ (∀ id e, (id, e) ∈ m →
        shouldDelete (now - days * secondsPerDay) e = true →
        lookupKey id (cleanupSubmissions now days fs).1.payloads = none)
    ∧ (∀ id e, (id, e) ∈ m →
        shouldDelete (now - days * secondsPerDay) e = false →
        lookupKey id (cleanupSubmissions now days fs).1.payloads
          = lookupKey id fs.payloads) := by
  refine ⟨cleanup_meta_nodup now days fs m hm hnd, ?_, ?_⟩
  · intro id e hmem hdel
    have hid : id ∈ toDeleteList now days fs :=
      (mem_toDeleteList_nodup hm hnd hmem).mpr hdel
    rw [cleanup_payloads]
    apply lookupKey_filter_none
    intro p hp
    rw [hp]
    simp [hid]
  · intro id e hmem hdel
    have hid : id ∉ toDeleteList now days fs := fun hin =>
      (Bool.eq_false_iff.mp hdel) ((mem_toDeleteList_nodup hm hnd hmem).mp hin)
    rw [cleanup_payloads]
    apply lookupKey_filter
    intro p hp
    rw [hp]
    simp [hid]

def fsC3 : FS :=
  ⟨true, [("old", ['o', '\n']), ("new", ['n', '\n'])],
   MetaFile.ok [("old", { dateIndexed := some (DateStr.parses 6048000) }),
                ("new", { dateIndexed := some (DateStr.parses 8553600) })]⟩

theorem claim3_witness :
    ((cleanupSubmissions 8640000 28 fsC3).1.meta
        = MetaFile.ok [("new", { dateIndexed := some (DateStr.parses 8553600) })])
    ∧ lookupKey "old" (cleanupSubmissions 8640000 28 fsC3).1.payloads = none
    ∧ lookupKey "new" (cleanupSubmissions 8640000 28 fsC3).1.payloads
        = some ['n', '\n'] := by
  have h := claim3_cleanup_exact 8640000 28 fsC3
    [("old", { dateIndexed := some (DateStr.parses 6048000) }),
     ("new", { dateIndexed := some (DateStr.parses 8553600) })] rfl (by decide)
  refine ⟨?_, ?_, ?_⟩
  · rw [h.1]; rfl
  · exact h.2.1 "old" { dateIndexed := some (DateStr.parses 6048000) }
      (by decide) (by decide)
  · rw [h.2.2 "new" { dateIndexed := some (DateStr.parses 8553600) }
      (by decide) (by decide)]
    rfl

/-- C4: an entry whose `date_indexed` is missing, empty or unparseable
survives every cleanup regardless of age, a warning naming it is logged,
and the run produces no error-level log at all. -/
theorem claim4_cleanup_conservative (now days : Int) (fs : FS)
    (m : List (String × Entry)) (id : String) (e : Entry)
    (hm : fs.meta = MetaFile.ok m) (hnd : (m.map Prod.fst).Nodup)
    (hmem : (id, e) ∈ m)
    (hbad : e.dateIndexed = none ∨ e.dateIndexed = some DateStr.empty
      ∨ e.dateIndexed = some DateStr.fails) :
    (∃ m', (cleanupSubmissions now days fs).1.meta = MetaFile.ok m'
        ∧ (id, e) ∈ m')
    ∧ (Event.noDateWarning id ∈ (cleanupSubmissions now days fs).2
        ∨ Event.badDateWarning id ∈ (cleanupSubmissions now days fs).2)
    ∧ (∀ ev ∈ (cleanupSubmissions now days fs).2,
        ev.level ≠ some LogLevel.error) := by
  have hdel : shouldDelete (now - days * secondsPerDay) e = false := by
    rcases hbad with hb | hb | hb <;> simp [shouldDelete, hb]
  have hlm : (loadMetadata fs).1 = m := by simp [loadMetadata, hm]
  refine ⟨⟨_, cleanup_meta_nodup now days fs m hm hnd, ?_⟩, ?_, cleanup_no_error now days fs⟩
  · exact List.mem_filter.mpr ⟨hmem, by simp [hdel]⟩
  · have hw := scanEntries_warning_of_bad (now - days * secondsPerDay) m id e hmem hbad
    have hsub : ∀ ev : Event,
        ev ∈ (scanEntries (now - days * secondsPerDay) m).2 →
        ev ∈ (cleanupSubmissions now days fs).2 := by
      intro ev hev
      rw [cleanupSubmissions]
      simp only [List.mem_cons, List.mem_append, hlm]
      exact Or.inl (Or.inl (Or.inl (Or.inr hev)))
    rcases hw with hw | hw
    · exact Or.inl (hsub _ hw)
    · exact Or.inr (hsub _ hw)

def fsC4 : FS :=
  ⟨true, [("x", ['x', '\n'])],
   MetaFile.ok [("x", { dateIndexed := some DateStr.fails })]⟩

theorem claim4_witness :
    (∃ m', (cleanupSubmissions 8640000 28 fsC4).1.meta = MetaFile.ok m'
        ∧ ("x", { dateIndexed := some DateStr.fails }) ∈ m')
    ∧ (Event.noDateWarning "x" ∈ (cleanupSubmissions 8640000 28 fsC4).2
        ∨ Event.badDateWarning "x" ∈ (cleanupSubmissions 8640000 28 fsC4).2) := by
  have h := claim4_cleanup_conservative 8640000 28 fsC4
    [("x", { dateIndexed := some DateStr.fails })] "x"
    { dateIndexed := some DateStr.fails } rfl (by decide) (by decide)
    (Or.inr (Or.inr rfl))
  exact ⟨h.1, h.2.1⟩

def fsC8 : FS :=
  ⟨true, [("a", ['x', '\n'])],
   MetaFile.ok [("a", { dateIndexed := some (DateStr.parses 0) })]⟩

/-- C8 counterexample: a successful `load_submission` call in whose trace
no cleanup-start log precedes the success info log — the eviction sweep is
NOT triggered before the success info message, refuting the claimed step
order. -/
theorem claim8_counterexample :
    (∃ p, (loadSubmission 0 "a" fsC8).1 = Except.ok p)
    ∧ ¬ ∃ i : Fin (loadSubmission 0 "a" fsC8).2.2.length,
        ∃ j : Fin (loadSubmission 0 "a" fsC8).2.2.length,
          i < j
          ∧ (loadSubmission 0 "a" fsC8).2.2.get i
              = Event.cleanupStartInfo defaultOlderThanDays
          ∧ (loadSubmission 0 "a" fsC8).2.2.get j = Event.loadedInfo "a" :=
  ⟨⟨_, rfl⟩, by decide⟩

/-- C8 (amended): in every successful `load_submission` call the success
info message is logged first and the eviction sweep is triggered right
after it: the trace is some metadata-load warnings, then the success info
log, then immediately the cleanup-start log and the rest of the sweep. -/
theorem claim8_info_before_cleanup (now : Int) (id : String) (fs : FS)
    (p : List (List Char) × Entry)
    (h : (loadSubmission now id fs).1 = Except.ok p) :
    ∃ pre rest, (loadSubmission now id fs).2.2
        = pre ++ Event.loadedInfo id
            :: Event.cleanupStartInfo defaultOlderThanDays :: rest
      ∧ ∀ ev ∈ pre, ev.level = some LogLevel.warning := by
  rcases hfile : lookupKey id fs.payloads with _ | content
  · rw [loadSubmission_noFile now id fs hfile] at h
    simp at h
  · rcases hmeta : lookupKey id (loadMetadata fs).1 with _ | e
    · rw [loadSubmission_noMeta now id fs hfile hmeta] at h
      simp at h
    · rw [loadSubmission_success now id fs hfile hmeta]
      obtain ⟨tail, htail⟩ : ∃ tail,
          (cleanupSubmissions now defaultOlderThanDays fs).2
            = Event.cleanupStartInfo defaultOlderThanDays :: tail := ⟨_, rfl⟩
      refine ⟨(loadMetadata fs).2, tail, ?_, loadMetadata_events_warning fs⟩
      rw [htail]
      simp

theorem claim8_witness :
    ((loadSubmission 0 "a" fsC8).1
        = Except.ok ([['x']], { dateIndexed := some (DateStr.parses 0) }))
    ∧ ∃ pre rest, (loadSubmission 0 "a" fsC8).2.2
        = pre ++ Event.loadedInfo "a"
            :: Event.cleanupStartInfo defaultOlderThanDays :: rest
      ∧ ∀ ev ∈ pre, ev.level = some LogLevel.warning :=
  ⟨rfl, claim8_info_before_cleanup 0 "a" fsC8
    ([['x']], { dateIndexed := some (DateStr.parses 0) }) rfl⟩

def fsC9 : FS := ⟨true, [("a", ['x', '\n'])], MetaFile.corrupt⟩

/-- C9 counterexample: a `load_submission` call on a store whose metadata
file is corrupt leaves the corrupt file on disk untouched and performs no
metadata write at all, refuting the claim that any call to load erases
corrupt metadata content. -/
theorem claim9_counterexample :
    (loadSubmission 0 "a" fsC9).2.1.meta = MetaFile.corrupt
    ∧ ((loadSubmission 0 "a" fsC9).2.2).count Event.metaSaved = 0 :=
  ⟨rfl, by decide⟩

/-- C9 (amended): every cleanup call rewrites the metadata file exactly
once, even with nothing evicted; a missing or corrupt metadata file is
persisted as the empty document by any cleanup call, and any store call
replaces it with a document holding only the new entry; but a load call
that raises NotFound — which every load on a corrupt-metadata store does —
leaves the metadata file untouched. -/
theorem claim9_metadata_rewrite (now days : Int) (fs : FS) (id : String)
    (payload : List (List Char)) :
    ((cleanupSubmissions now days fs).2.count Event.metaSaved = 1)
    ∧ ((fs.meta = MetaFile.missing ∨ fs.meta = MetaFile.corrupt) →
        ((cleanupSubmissions now days fs).1.meta = MetaFile.ok [])
        ∧ ((storeSubmission now id payload fs).1.meta
            = MetaFile.ok [(id, { dateIndexed := some (DateStr.parses now) })])
        ∧ ((loadSubmission now id fs).2.1 = fs
            ∧ isErr (loadSubmission now id fs).1 = true)) := by
  refine ⟨cleanup_count_metaSaved now days fs, ?_⟩
  intro hbad
  have hlm0 : loadMetadata fs = ([], [Event.metadataLoadWarning]) := by
    rcases hbad with h | h <;> simp [loadMetadata, h]
  refine ⟨?_, ?_, ?_⟩
  · rw [cleanup_meta, hlm0]
    rfl
  · rw [storeSubmission_fst, cleanup_meta]
    have hm1 : (loadMetadata (storedFS now id payload fs)).1
        = dictInsert id { dateIndexed := some (DateStr.parses now) }
            (loadMetadata fs).1 := rfl
    rw [hm1, hlm0]
    have hred : dictInsert id { dateIndexed := some (DateStr.parses now) }
        ((([], [Event.metadataLoadWarning]) :
          List (String × Entry) × List Event).1)
        = [(id, { dateIndexed := some (DateStr.parses now) })] := rfl
    rw [hred]
    have hnm := store_not_marked now id payload fs
    have hcontains : ((toDeleteList now defaultOlderThanDays
        (storedFS now id payload fs)).contains id) = false := by
      simp [hnm]
    simp [List.filter_cons, hcontains]
    exact hnm
  · rcases hfile : lookupKey id fs.payloads with _ | content
    · rw [loadSubmission_noFile now id fs hfile]
      exact ⟨rfl, rfl⟩
    · have hmeta : lookupKey id (loadMetadata fs).1 = none := by
        rw [hlm0]
        rfl
      rw [loadSubmission_noMeta now id fs hfile hmeta]
      exact ⟨rfl, rfl⟩

theorem claim9_witness :
    ((cleanupSubmissions 0 28 fsC9).2.count Event.metaSaved = 1)
    ∧ (cleanupSubmissions 0 28 fsC9).1.meta = MetaFile.ok []
    ∧ (storeSubmission 0 "b" [['z']] fsC9).1.meta
        = MetaFile.ok [("b", { dateIndexed := some (DateStr.parses 0) })] := by
  have h := claim9_metadata_rewrite 0 28 fsC9 "b" [['z']]
  exact ⟨h.1, (h.2 (Or.inr rfl)).1, by
    have h2 := claim9_metadata_rewrite 0 28 fsC9 "b" [['z']]
    exact (h2.2 (Or.inr rfl)).2.1⟩

/-- C10: when both the payload file and the metadata entry exist,
`load_submission` succeeds and returns the payload even if the entry is
older than the default eviction threshold; the sweep runs only after the
data has been read, so the call returns the data while deleting the
submission, and a second load of the same id then raises NotFound on the
missing file. -/
theorem claim10_load_then_evict (n1 n2 : Int) (id : String) (fs : FS)
    (content : List Char) (m : List (String × Entry)) (e : Entry) (t : Int)
    (hfile : lookupKey id fs.payloads = some content)
    (hm : fs.meta = MetaFile.ok m)
    (hmeta : lookupKey id m = some e)
    (ht : e.dateIndexed = some (DateStr.parses t))
    (hold : t < n1 - defaultOlderThanDays * secondsPerDay) :
    (loadSubmission n1 id fs).1 = Except.ok (readLines content, e)
    ∧ (loadSubmission n2 id (loadSubmission n1 id fs).2.1).1
        = Except.error LoadError.fileNotFound := by
  have hlm : (loadMetadata fs).1 = m := by simp [loadMetadata, hm]
  have hmeta' : lookupKey id (loadMetadata fs).1 = some e := by rw [hlm]; exact hmeta
  have hidmem : id ∈ toDeleteList n1 defaultOlderThanDays fs := by
    refine mem_toDeleteList.mpr ⟨e, ?_, ?_⟩
    · rw [hlm]
      exact lookupKey_mem hmeta
    · simp [shouldDelete, ht, decide_eq_true_eq]
      exact hold
  have hnone : lookupKey id
      (cleanupSubmissions n1 defaultOlderThanDays fs).1.payloads = none := by
    rw [cleanup_payloads]
    apply lookupKey_filter_none
    intro p hp
    rw [hp]
    simp [hidmem]
  rw [loadSubmission_success n1 id fs hfile hmeta']
  exact ⟨rfl, by rw [loadSubmission_noFile n2 id _ hnone]⟩

def fsC10 : FS :=
  ⟨true, [("a", ['x', '\n'])],
   MetaFile.ok [("a", { dateIndexed := some (DateStr.parses 0) })]⟩

theorem claim10_witness :
    ((0 : Int) < 8640000 - defaultOlderThanDays * secondsPerDay)
    ∧ (loadSubmission 8640000 "a" fsC10).1
        = Except.ok ([['x']], { dateIndexed := some (DateStr.parses 0) })
    ∧ (loadSubmission 8640000 "a" (loadSubmission 8640000 "a" fsC10).2.1).1
        = Except.error LoadError.fileNotFound := by
  have h := claim10_load_then_evict 8640000 8640000 "a" fsC10 ['x', '\n']
    [("a", { dateIndexed := some (DateStr.parses 0) })]
    { dateIndexed := some (DateStr.parses 0) } 0 rfl rfl rfl rfl (by decide)
  exact ⟨by decide, h.1, h.2⟩

end SimplePersistence
